import Mathlib

/-!
Verification of the `stack_pool` data structure from `stack_pool.hpp`.

The pool stores nodes in a `std::vector<node_t>`; the handle of a node is
`1 + idx` where `idx` is its vector index, and handle `0` is the shared
end/empty sentinel.  We shallow-embed the class as a Lean structure `Pool`
and each member function as an executable Lean function.  Machine integers
(`std::size_t`) are modelled as `Nat` with explicit `% 2 ^ 64` where the
C++ performs wrapping unsigned arithmetic.  Fallible member functions
return `Except Err _`; out-of-bounds access to `std::vector::operator[]`
(undefined behavior in C++) is modelled as the designated error outcome
`Err.ub`.
-/

/-- Exception kinds of `stack_pool.hpp`, plus `ub`, the designated outcome
modelling undefined behavior (an out-of-range `std::vector::operator[]`
access, which the C++ standard leaves undefined). -/
inductive Err where
  | emptyStack
  | notStackHead
  | notEqualType
  | rangeChecking
  | ub
deriving DecidableEq

/-- The private `node_t` struct: a payload value, the handle of the next
node in its stack, and the `isHead` flag. The payload type `T` is `int`
(the instantiation used by the repository), modelled as `Int`. -/
structure Node where
  value : Int
  next : Nat
  isHead : Bool
deriving DecidableEq

/-- State of a `stack_pool<int>` object: the backing `std::vector<node_t>`
(modelled as a list of its constructed elements), the vector's current
capacity, and the `free_nodes` handle. -/
structure Pool where
  store : List Node
  cap : Nat
  free_nodes : Nat
deriving DecidableEq

/-- Unsigned 64-bit computation of `x - 1` as performed on the
`std::size_t` handle in `pool[x - 1]`: for `x = 0` it wraps around to
`2 ^ 64 - 1`. -/
def sub1 (x : Nat) : Nat :=
  (x + (2 ^ 64 - 1)) % 2 ^ 64

/-- The private member `node(x)`: `if (x > capacity()) throw
RangeCheckingException; return pool[x - 1];`.  The range check compares
against the vector's capacity, not its size.  When `x - 1` (computed in
`std::size_t`) is not the index of a constructed vector element,
`pool[x - 1]` is undefined behavior, modelled as `Err.ub`. -/
def nodeGet (p : Pool) (x : Nat) : Except Err Node :=
  if x > p.cap then .error .rangeChecking
  else
    match p.store.get? (sub1 x) with
    | some nd => .ok nd
    | none => .error .ub

/-- Write access through `node(x)`: same range check and the same
out-of-bounds undefined behavior as `nodeGet`, then the slot `pool[x - 1]`
is replaced. -/
def nodeSet (p : Pool) (x : Nat) (nd : Node) : Except Err Pool :=
  if x > p.cap then .error .rangeChecking
  else
    match p.store.get? (sub1 x) with
    | some _ => .ok { p with store := p.store.set (sub1 x) nd }
    | none => .error .ub

/-- The accessor `value(x)`: `return node(x).value;`. -/
def valueE (p : Pool) (x : Nat) : Except Err Int :=
  match nodeGet p x with
  | .ok nd => .ok nd.value
  | .error e => .error e

/-- The accessor `next(x)`: `return node(x).next;`. -/
def nextE (p : Pool) (x : Nat) : Except Err Nat :=
  match nodeGet p x with
  | .ok nd => .ok nd.next
  | .error e => .error e

/-- The accessor `isHead(x)`: `return node(x).isHead;`. -/
def isHeadE (p : Pool) (x : Nat) : Except Err Bool :=
  match nodeGet p x with
  | .ok nd => .ok nd.isHead
  | .error e => .error e

/-- The mutating use `value(x) = v` of the reference returned by
`value(x)`. -/
def setValueE (p : Pool) (x : Nat) (v : Int) : Except Err Pool :=
  match nodeGet p x with
  | .ok nd => nodeSet p x { nd with value := v }
  | .error e => .error e

/-- The mutating use `next(x) = n` of the reference returned by
`next(x)`. -/
def setNextE (p : Pool) (x : Nat) (n : Nat) : Except Err Pool :=
  match nodeGet p x with
  | .ok nd => nodeSet p x { nd with next := n }
  | .error e => .error e

/-- The mutating use `isHead(x) = b` of the reference returned by
`isHead(x)`. -/
def setIsHeadE (p : Pool) (x : Nat) (b : Bool) : Except Err Pool :=
  match nodeGet p x with
  | .ok nd => nodeSet p x { nd with isHead := b }
  | .error e => .error e

/-- The member `end()`: `return stack_type(0);`. (`end` is a reserved word
in Lean, hence the name `endH`.) -/
def endH (_ : Pool) : Nat := 0

/-- The member `empty(x)`: `return x == end();`, declared `noexcept`; it
reads no node storage, hence its Lean type is a plain `Bool`, not
`Except`. -/
def emptyQ (p : Pool) (x : Nat) : Bool :=
  x == endH p

/-- The member `new_stack()`: `return end();`. -/
def new_stack (p : Pool) : Nat := endH p

/-- The call `pool.emplace_back(val, head, true)`: appends a constructed
node.  When the vector is full the capacity grows by an
implementation-defined amount; we model the minimal growth guaranteed by
the standard (capacity becomes at least the new size). -/
def emplaceBack (p : Pool) (v : Int) (n : Nat) (b : Bool) : Pool :=
  { store := p.store ++ [⟨v, n, b⟩]
    cap := if p.store.length < p.cap then p.cap else p.store.length + 1
    free_nodes := p.free_nodes }

/-- The private member `_push(X&& val, stack_type head)`.  Its first
statement throws `NotEqualTypeException` when `std::is_same<X,
value_type>::value` is false; that compile-time constant is passed here as
the argument `sameType`, fixed per overload of `push`.  Otherwise the
free-list head is reused when available, else a new node is appended; in
both branches `isHead(head) = false` is executed unconditionally. -/
def pushCore (p : Pool) (sameType : Bool) (v : Int) (head : Nat) :
    Except Err (Pool × Nat) :=
  if !sameType then .error .notEqualType
  else if !(p.free_nodes == 0) then
    let t := p.free_nodes
    match setValueE p p.free_nodes v with
    | .error e => .error e
    | .ok p1 =>
      match nextE p1 p1.free_nodes with
      | .error e => .error e
      | .ok nx =>
        let p2 := { p1 with free_nodes := nx }
        match setNextE p2 t head with
        | .error e => .error e
        | .ok p3 =>
          match setIsHeadE p3 head false with
          | .error e => .error e
          | .ok p4 =>
            match setIsHeadE p4 t true with
            | .error e => .error e
            | .ok p5 => .ok (p5, t)
  else
    let p1 := emplaceBack p v head true
    match setIsHeadE p1 head false with
    | .error e => .error e
    | .ok p2 => .ok (p2, p2.store.length)

/-- The overload `push(const T& val, stack_type head)`.  It calls
`_push(val, head)` where `val` is an lvalue of type `const T`, so the
forwarding reference deduces `X = const T&` and
`std::is_same<X, value_type>::value` is false: `sameType := false`. -/
def pushLvalue (p : Pool) (v : Int) (head : Nat) : Except Err (Pool × Nat) :=
  pushCore p false v head

/-- The overload `push(T&& val, stack_type head)`.  It calls
`_push(std::move(val), head)` where the argument is an rvalue of type `T`,
so `X = T` and `std::is_same<X, value_type>::value` is true:
`sameType := true`. -/
def pushRvalue (p : Pool) (v : Int) (head : Nat) : Except Err (Pool × Nat) :=
  pushCore p true v head

/-- The member `pop(stack_type x)`.  Note the order of its checks: it
evaluates `isHead(x)` (a `node(x)` access) before testing `empty(x)`, and
at the end it executes `isHead(t) = true` for the successor `t`
unconditionally, and writes the debug value `-1` into the popped node. -/
def pop (p : Pool) (x : Nat) : Except Err (Pool × Nat) :=
  match isHeadE p x with
  | .error e => .error e
  | .ok ih =>
    if !ih then .error .notStackHead
    else if emptyQ p x then .error .emptyStack
    else
      match nextE p x with
      | .error e => .error e
      | .ok t =>
        match setNextE p x p.free_nodes with
        | .error e => .error e
        | .ok p1 =>
          let p2 := { p1 with free_nodes := x }
          match setValueE p2 x (-1) with
          | .error e => .error e
          | .ok p3 =>
            match setIsHeadE p3 t true with
            | .error e => .error e
            | .ok p4 =>
              match setIsHeadE p4 x false with
              | .error e => .error e
              | .ok p5 => .ok (p5, t)

/-- The member `free_stack(x)`: `while (x != end()) x = pop(x); return x;`.
The loop is modelled with explicit fuel; `none` means the fuel ran out
before the loop finished. -/
def freeStackFuel (p : Pool) (x : Nat) : Nat → Option (Except Err (Pool × Nat))
  | 0 => none
  | fuel + 1 =>
    if x == 0 then some (.ok (p, x))
    else
      match pop p x with
      | .error e => some (.error e)
      | .ok (p', x') => freeStackFuel p' x' fuel

/-- The member `length(x)`: iterates the forward cursor from `x` until the
sentinel, counting steps; each `++it` performs `next(current)`.  `length`
is declared `noexcept`, so an exception escaping `next` terminates the
program; both that and undefined behavior surface as the `Except` error.
The loop is modelled with explicit fuel (`none` = fuel exhausted, which
covers a cyclic chain). -/
def lengthFuel (p : Pool) (x : Nat) (acc : Nat) : Nat → Option (Except Err Nat)
  | 0 => none
  | fuel + 1 =>
    if x == 0 then some (.ok acc)
    else
      match nextE p x with
      | .error e => some (.error e)
      | .ok nx => lengthFuel p nx (acc + 1) fuel

/-- Traversal with the forward cursor from `x` to the sentinel, collecting
`*it` (that is, `value(current)`) at each step, as `print_stack` does. -/
def traverseFuel (p : Pool) (x : Nat) : Nat → Option (Except Err (List Int))
  | 0 => none
  | fuel + 1 =>
    if x == 0 then some (.ok [])
    else
      match valueE p x with
      | .error e => some (.error e)
      | .ok v =>
        match nextE p x with
        | .error e => some (.error e)
        | .ok nx =>
          match traverseFuel p nx fuel with
          | none => none
          | some (.error e) => some (.error e)
          | some (.ok l) => some (.ok (v :: l))

/-- Representation predicate for one live stack: `stackRep store x top rep`
holds when following handles from `x` visits exactly the cells listed in
`rep` (each pair is a handle together with the payload stored there) and
then the sentinel, every visited handle is the 1-based index of a
constructed slot, the first visited node carries `isHead = top`, and every
later one carries `isHead = false`. -/
def stackRep (store : List Node) : Nat → Bool → List (Nat × Int) → Bool
  | x, _, [] => x == 0
  | x, top, (c, v) :: rest =>
    x == c && decide (1 ≤ c) && decide (c ≤ store.length) &&
      (match store.get? (c - 1) with
       | some nd => nd.value == v && nd.isHead == top && stackRep store nd.next false rest
       | none => false)

/-- Representation predicate for the free list: following handles from `x`
visits exactly the cells of `cs`, all flagged `isHead = false`, ending at
the sentinel. -/
def freeRep (store : List Node) : Nat → List Nat → Bool
  | x, [] => x == 0
  | x, c :: cs =>
    x == c && decide (1 ≤ c) && decide (c ≤ store.length) &&
      (match store.get? (c - 1) with
       | some nd => nd.isHead == false && freeRep store nd.next cs
       | none => false)

/-- Handles of the cells of a stack representation. -/
def cells (rep : List (Nat × Int)) : List Nat :=
  rep.map Prod.fst

/-! Auxiliary list lemmas, proved here to keep the development
self-contained. -/

/-- Reading a list at an index shorter than its length after `set` at that
same index yields the new element. -/
theorem listGetSetSelf {α : Type} (l : List α) (i : Nat) (a : α)
    (h : i < l.length) : (l.set i a).get? i = some a := by
  induction l generalizing i with
  | nil => simp at h
  | cons b t ih =>
    cases i with
    | zero => rfl
    | succ j => simpa using ih j (by simpa using h)

/-- Reading a list after `set` at a different index is unchanged. -/
theorem listGetSetNe {α : Type} (l : List α) (i j : Nat) (a : α)
    (h : i ≠ j) : (l.set i a).get? j = l.get? j := by
  induction l generalizing i j with
  | nil => simp
  | cons b t ih =>
    cases i with
    | zero =>
      cases j with
      | zero => exact absurd rfl h
      | succ k => rfl
    | succ i' =>
      cases j with
      | zero => rfl
      | succ k => simpa using ih i' k (by omega)

/-- Reading an appended list within the left part. -/
theorem listGetAppendLeft {α : Type} (l l' : List α) (i : Nat)
    (h : i < l.length) : (l ++ l').get? i = l.get? i := by
  induction l generalizing i with
  | nil => simp at h
  | cons b t ih =>
    cases i with
    | zero => rfl
    | succ j => simpa using ih j (by simpa using h)

/-- Reading just past a list after appending one element yields that
element. -/
theorem listGetAppendLength {α : Type} (l : List α) (a : α) :
    (l ++ [a]).get? l.length = some a := by
  induction l with
  | nil => rfl
  | cons b t ih => simp [ih]

/-- Reading a list at or beyond its length yields `none`. -/
theorem listGetNone {α : Type} (l : List α) (i : Nat)
    (h : l.length ≤ i) : l.get? i = none := by
  induction l generalizing i with
  | nil => rfl
  | cons b t ih =>
    cases i with
    | zero => simp at h
    | succ j => simpa using ih j (by simpa using h)

/-- On handles of constructed slots (`1 ≤ x ≤ 2 ^ 64`), the wrapping
`std::size_t` decrement agrees with plain subtraction. -/
theorem sub1_eq (x : Nat) (h1 : 1 ≤ x) (h2 : x ≤ 2 ^ 64) :
    sub1 x = x - 1 := by
  unfold sub1
  have hx : x + (2 ^ 64 - 1) = (x - 1) + 2 ^ 64 := by omega
  rw [hx, Nat.add_mod_right, Nat.mod_eq_of_lt (by omega)]

/-- The sentinel handle wraps to `2 ^ 64 - 1`. -/
theorem sub1_zero : sub1 0 = 2 ^ 64 - 1 := by decide

/-! Stepping lemmas describing each accessor on a valid handle. -/

/-- The private `node(x)` succeeds exactly on handles of constructed
slots. -/
theorem nodeGet_ok (p : Pool) (x : Nat) (nd : Node)
    (h1 : 1 ≤ x) (h2 : x ≤ p.store.length)
    (hcap : p.store.length ≤ p.cap) (hlen : p.store.length ≤ 2 ^ 64)
    (hget : p.store.get? (x - 1) = some nd) :
    nodeGet p x = .ok nd := by
  unfold nodeGet
  rw [if_neg (by omega), sub1_eq x h1 (by omega), hget]

/-- Write access through `node(x)` on a valid handle replaces the slot. -/
theorem nodeSet_ok (p : Pool) (x : Nat) (nd nd' : Node)
    (h1 : 1 ≤ x) (h2 : x ≤ p.store.length)
    (hcap : p.store.length ≤ p.cap) (hlen : p.store.length ≤ 2 ^ 64)
    (hget : p.store.get? (x - 1) = some nd) :
    nodeSet p x nd' = .ok { p with store := p.store.set (x - 1) nd' } := by
  unfold nodeSet
  rw [if_neg (by omega), sub1_eq x h1 (by omega), hget]

/-- Reading `value(x)` on a valid handle. -/
theorem valueE_ok (p : Pool) (x : Nat) (nd : Node)
    (h1 : 1 ≤ x) (h2 : x ≤ p.store.length)
    (hcap : p.store.length ≤ p.cap) (hlen : p.store.length ≤ 2 ^ 64)
    (hget : p.store.get? (x - 1) = some nd) :
    valueE p x = .ok nd.value := by
  unfold valueE
  rw [nodeGet_ok p x nd h1 h2 hcap hlen hget]

/-- Reading `next(x)` on a valid handle. -/
theorem nextE_ok (p : Pool) (x : Nat) (nd : Node)
    (h1 : 1 ≤ x) (h2 : x ≤ p.store.length)
    (hcap : p.store.length ≤ p.cap) (hlen : p.store.length ≤ 2 ^ 64)
    (hget : p.store.get? (x - 1) = some nd) :
    nextE p x = .ok nd.next := by
  unfold nextE
  rw [nodeGet_ok p x nd h1 h2 hcap hlen hget]

/-- Reading `isHead(x)` on a valid handle. -/
theorem isHeadE_ok (p : Pool) (x : Nat) (nd : Node)
    (h1 : 1 ≤ x) (h2 : x ≤ p.store.length)
    (hcap : p.store.length ≤ p.cap) (hlen : p.store.length ≤ 2 ^ 64)
    (hget : p.store.get? (x - 1) = some nd) :
    isHeadE p x = .ok nd.isHead := by
  unfold isHeadE
  rw [nodeGet_ok p x nd h1 h2 hcap hlen hget]

/-- Writing `value(x) = v` on a valid handle. -/
theorem setValueE_ok (p : Pool) (x : Nat) (nd : Node) (v : Int)
    (h1 : 1 ≤ x) (h2 : x ≤ p.store.length)
    (hcap : p.store.length ≤ p.cap) (hlen : p.store.length ≤ 2 ^ 64)
    (hget : p.store.get? (x - 1) = some nd) :
    setValueE p x v =
      .ok { p with store := p.store.set (x - 1) { nd with value := v } } := by
  unfold setValueE
  rw [nodeGet_ok p x nd h1 h2 hcap hlen hget]
  exact nodeSet_ok p x nd _ h1 h2 hcap hlen hget

/-- Writing `next(x) = n` on a valid handle. -/
theorem setNextE_ok (p : Pool) (x : Nat) (nd : Node) (n : Nat)
    (h1 : 1 ≤ x) (h2 : x ≤ p.store.length)
    (hcap : p.store.length ≤ p.cap) (hlen : p.store.length ≤ 2 ^ 64)
    (hget : p.store.get? (x - 1) = some nd) :
    setNextE p x n =
      .ok { p with store := p.store.set (x - 1) { nd with next := n } } := by
  unfold setNextE
  rw [nodeGet_ok p x nd h1 h2 hcap hlen hget]
  exact nodeSet_ok p x nd _ h1 h2 hcap hlen hget

/-- Writing `isHead(x) = b` on a valid handle. -/
theorem setIsHeadE_ok (p : Pool) (x : Nat) (nd : Node) (b : Bool)
    (h1 : 1 ≤ x) (h2 : x ≤ p.store.length)
    (hcap : p.store.length ≤ p.cap) (hlen : p.store.length ≤ 2 ^ 64)
    (hget : p.store.get? (x - 1) = some nd) :
    setIsHeadE p x b =
      .ok { p with store := p.store.set (x - 1) { nd with isHead := b } } := by
  unfold setIsHeadE
  rw [nodeGet_ok p x nd h1 h2 hcap hlen hget]
  exact nodeSet_ok p x nd _ h1 h2 hcap hlen hget

/-! Inversion and framing lemmas for the representation predicates. -/

/-- A stack representation ending here means the handle is the sentinel. -/
theorem stackRep_nil (store : List Node) (x : Nat) (top : Bool) :
    stackRep store x top [] = true ↔ x = 0 := by
  simp [stackRep]

/-- Unfolding one cell of a stack representation. -/
theorem stackRep_cons (store : List Node) (x : Nat) (top : Bool) (c : Nat)
    (v : Int) (rest : List (Nat × Int)) :
    stackRep store x top ((c, v) :: rest) = true ↔
      x = c ∧ 1 ≤ c ∧ c ≤ store.length ∧
        ∃ nd, store.get? (c - 1) = some nd ∧ nd.value = v ∧ nd.isHead = top ∧
          stackRep store nd.next false rest = true := by
  cases hnd : store[c - 1]? with
  | none => simp [stackRep, hnd]
  | some nd => simp [stackRep, hnd, and_assoc]

/-- A free-list representation ending here means the handle is the
sentinel. -/
theorem freeRep_nil (store : List Node) (x : Nat) :
    freeRep store x [] = true ↔ x = 0 := by
  simp [freeRep]

/-- Unfolding one cell of a free-list representation. -/
theorem freeRep_cons (store : List Node) (x : Nat) (c : Nat)
    (cs : List Nat) :
    freeRep store x (c :: cs) = true ↔
      x = c ∧ 1 ≤ c ∧ c ≤ store.length ∧
        ∃ nd, store.get? (c - 1) = some nd ∧ nd.isHead = false ∧
          freeRep store nd.next cs = true := by
  cases hnd : store[c - 1]? with
  | none => simp [freeRep, hnd]
  | some nd => simp [freeRep, hnd, and_assoc]

/-- Every cell of a stack representation is a constructed slot. -/
theorem stackRep_bound (store : List Node) (x : Nat) (top : Bool)
    (rep : List (Nat × Int)) (h : stackRep store x top rep = true) :
    ∀ cv ∈ rep, 1 ≤ cv.1 ∧ cv.1 ≤ store.length := by
  induction rep generalizing x top with
  | nil => simp
  | cons cv rest ih =>
    obtain ⟨c, v⟩ := cv
    rw [stackRep_cons] at h
    obtain ⟨-, h1, h2, nd, -, -, -, hrest⟩ := h
    intro dv hdv
    rcases List.mem_cons.mp hdv with hdv | hdv
    · subst hdv; exact ⟨h1, h2⟩
    · exact ih nd.next false hrest dv hdv

/-- Every cell of a free-list representation is a constructed slot. -/
theorem freeRep_bound (store : List Node) (x : Nat) (cs : List Nat)
    (h : freeRep store x cs = true) :
    ∀ c ∈ cs, 1 ≤ c ∧ c ≤ store.length := by
  induction cs generalizing x with
  | nil => simp
  | cons c rest ih =>
    rw [freeRep_cons] at h
    obtain ⟨-, h1, h2, nd, -, -, hrest⟩ := h
    intro d hd
    rcases List.mem_cons.mp hd with hd | hd
    · subst hd; exact ⟨h1, h2⟩
    · exact ih nd.next hrest d hd

/-- A stack representation transfers to any store that is at least as long
and agrees at the slots of the represented cells. -/
theorem stackRep_frame (store store' : List Node)
    (hl : store.length ≤ store'.length) (x : Nat) (top : Bool)
    (rep : List (Nat × Int))
    (hsame : ∀ cv ∈ rep, store'.get? (cv.1 - 1) = store.get? (cv.1 - 1))
    (h : stackRep store x top rep = true) :
    stackRep store' x top rep = true := by
  induction rep generalizing x top with
  | nil => rw [stackRep_nil] at h ⊢; exact h
  | cons cv rest ih =>
    obtain ⟨c, v⟩ := cv
    rw [stackRep_cons] at h ⊢
    obtain ⟨hx, h1, h2, nd, hnd, hv, hh, hrest⟩ := h
    refine ⟨hx, h1, le_trans h2 hl, nd, ?_, hv, hh, ?_⟩
    · rw [hsame (c, v) (List.mem_cons_self _ _), hnd]
    · exact ih nd.next false
        (fun dv hdv => hsame dv (List.mem_cons_of_mem _ hdv)) hrest

/-- A free-list representation transfers to any store that is at least as
long and agrees at the slots of the represented cells. -/
theorem freeRep_frame (store store' : List Node)
    (hl : store.length ≤ store'.length) (x : Nat) (cs : List Nat)
    (hsame : ∀ c ∈ cs, store'.get? (c - 1) = store.get? (c - 1))
    (h : freeRep store x cs = true) :
    freeRep store' x cs = true := by
  induction cs generalizing x with
  | nil => rw [freeRep_nil] at h ⊢; exact h
  | cons c rest ih =>
    rw [freeRep_cons] at h ⊢
    obtain ⟨hx, h1, h2, nd, hnd, hh, hrest⟩ := h
    refine ⟨hx, h1, le_trans h2 hl, nd, ?_, hh, ?_⟩
    · rw [hsame c (List.mem_cons_self _ _), hnd]
    · exact ih nd.next
        (fun d hd => hsame d (List.mem_cons_of_mem _ hd)) hrest

/-- On a represented stack, `length` terminates with the number of cells
(with any accumulator), using one unit of fuel per visited handle. -/
theorem lengthFuel_of_stackRep (p : Pool) (x : Nat) (top : Bool)
    (rep : List (Nat × Int)) (acc : Nat)
    (hcap : p.store.length ≤ p.cap) (hlen : p.store.length ≤ 2 ^ 64)
    (h : stackRep p.store x top rep = true) :
    lengthFuel p x acc (rep.length + 1) = some (.ok (acc + rep.length)) := by
  induction rep generalizing x top acc with
  | nil =>
    rw [stackRep_nil] at h
    subst h
    simp [lengthFuel]
  | cons cv rest ih =>
    obtain ⟨c, v⟩ := cv
    rw [stackRep_cons] at h
    obtain ⟨hx, h1, h2, nd, hnd, -, -, hrest⟩ := h
    subst hx
    have hc0 : (x == 0) = false := by simp; omega
    rw [List.length_cons]
    show lengthFuel p x acc (rest.length + 1 + 1) = _
    unfold lengthFuel
    rw [hc0]
    simp only [Bool.false_eq_true, if_false,
      nextE_ok p x nd h1 h2 hcap hlen hnd]
    rw [ih nd.next false (acc + 1) hrest]
    congr 2
    omega

/-- On a represented stack, the forward cursor traversal terminates and
yields exactly the represented values in order. -/
theorem traverseFuel_of_stackRep (p : Pool) (x : Nat) (top : Bool)
    (rep : List (Nat × Int))
    (hcap : p.store.length ≤ p.cap) (hlen : p.store.length ≤ 2 ^ 64)
    (h : stackRep p.store x top rep = true) :
    traverseFuel p x (rep.length + 1) =
      some (.ok (rep.map Prod.snd)) := by
  induction rep generalizing x top with
  | nil =>
    rw [stackRep_nil] at h
    subst h
    simp [traverseFuel]
  | cons cv rest ih =>
    obtain ⟨c, v⟩ := cv
    rw [stackRep_cons] at h
    obtain ⟨hx, h1, h2, nd, hnd, hv, -, hrest⟩ := h
    subst hx
    have hc0 : (x == 0) = false := by simp; omega
    rw [List.length_cons]
    show traverseFuel p x (rest.length + 1 + 1) = _
    unfold traverseFuel
    rw [hc0]
    simp only [Bool.false_eq_true, if_false,
      valueE_ok p x nd h1 h2 hcap hlen hnd,
      nextE_ok p x nd h1 h2 hcap hlen hnd]
    rw [ih nd.next false hrest]
    simp [hv]

/-- Effect of a successful `push` (rvalue overload) on a non-sentinel head
when the free list is non-empty: the free-list head slot `f` is reused and
returned, the backing store does not grow, the pushed stack gains `(f, v)`
as its unique head cell, and the free list loses its first cell. -/
theorem push_reuse_spec (p : Pool) (v : Int) (h : Nat) (vh : Int)
    (rest : List (Nat × Int)) (f : Nat) (ftail : List Nat)
    (hcap : p.store.length ≤ p.cap) (hlen : p.store.length ≤ 2 ^ 64)
    (hstack : stackRep p.store h true ((h, vh) :: rest) = true)
    (hfree : freeRep p.store p.free_nodes (f :: ftail) = true)
    (hnodupS : (cells ((h, vh) :: rest)).Nodup)
    (hnodupF : (f :: ftail).Nodup)
    (hdisj : ∀ c ∈ cells ((h, vh) :: rest), c ∉ f :: ftail) :
    ∃ p' : Pool,
      pushRvalue p v h = .ok (p', f) ∧
      stackRep p'.store f true ((f, v) :: (h, vh) :: rest) = true ∧
      freeRep p'.store p'.free_nodes ftail = true ∧
      p'.store.length = p.store.length ∧
      p'.cap = p.cap ∧
      (∀ j : Nat, j ≠ f - 1 → j ≠ h - 1 →
        p'.store.get? j = p.store.get? j) := by
  obtain ⟨hpf, hf1, hf2, fnd, hfnd, hfh, hftail⟩ :=
    (freeRep_cons p.store p.free_nodes f ftail).mp hfree
  obtain ⟨-, hh1, hh2, hnd, hhnd, hhv, hhh, hrest⟩ :=
    (stackRep_cons p.store h true h vh rest).mp hstack
  have hhf : h ≠ f ∧ h ∉ ftail := by
    have := hdisj h (by simp [cells])
    simpa using this
  have hflt : f - 1 < p.store.length := by omega
  have hhlt : h - 1 < p.store.length := by omega
  have hne : f - 1 ≠ h - 1 := by omega
  have hcc : cells ((h, vh) :: rest) = h :: cells rest := rfl
  have hnodup' : h ∉ cells rest ∧ (cells rest).Nodup :=
    List.nodup_cons.mp (hcc ▸ hnodupS)
  have hfnotin : f ∉ ftail := (List.nodup_cons.mp hnodupF).1
  -- the four successive stores written by the reuse branch
  set S1 : List Node := p.store.set (f - 1) ⟨v, fnd.next, fnd.isHead⟩ with hS1
  set S2 : List Node := S1.set (f - 1) ⟨v, h, fnd.isHead⟩ with hS2
  set S3 : List Node := S2.set (h - 1) ⟨hnd.value, hnd.next, false⟩ with hS3
  set S4 : List Node := S3.set (f - 1) ⟨v, h, true⟩ with hS4
  have hS1len : S1.length = p.store.length := by rw [hS1, List.length_set]
  have hS2len : S2.length = p.store.length := by
    rw [hS2, List.length_set, hS1len]
  have hS3len : S3.length = p.store.length := by
    rw [hS3, List.length_set, hS2len]
  have hS4len : S4.length = p.store.length := by
    rw [hS4, List.length_set, hS3len]
  have hSfin : S4 = (p.store.set (h - 1) ⟨hnd.value, hnd.next, false⟩).set
      (f - 1) ⟨v, h, true⟩ := by
    rw [hS4, hS3, hS2, hS1, List.set_set, List.set_comm _ _ _ hne,
      List.set_set]
  have hf0 : (f == 0) = false := by simp; omega
  have e1 : setValueE p f v = .ok ⟨S1, p.cap, p.free_nodes⟩ :=
    setValueE_ok p f fnd v hf1 hf2 hcap hlen hfnd
  have e2 : nextE ⟨S1, p.cap, f⟩ f = .ok fnd.next :=
    nextE_ok ⟨S1, p.cap, f⟩ f ⟨v, fnd.next, fnd.isHead⟩ hf1
      (by rw [hS1len]; exact hf2) (by rw [hS1len]; exact hcap)
      (by rw [hS1len]; exact hlen)
      (by rw [hS1]; exact listGetSetSelf p.store (f - 1) _ hflt)
  have e3 : setNextE ⟨S1, p.cap, fnd.next⟩ f h =
      .ok ⟨S2, p.cap, fnd.next⟩ :=
    setNextE_ok ⟨S1, p.cap, fnd.next⟩ f ⟨v, fnd.next, fnd.isHead⟩ h hf1
      (by rw [hS1len]; exact hf2) (by rw [hS1len]; exact hcap)
      (by rw [hS1len]; exact hlen)
      (by rw [hS1]; exact listGetSetSelf p.store (f - 1) _ hflt)
  have e4 : setIsHeadE ⟨S2, p.cap, fnd.next⟩ h false =
      .ok ⟨S3, p.cap, fnd.next⟩ :=
    setIsHeadE_ok ⟨S2, p.cap, fnd.next⟩ h ⟨hnd.value, hnd.next, hnd.isHead⟩
      false hh1
      (by rw [hS2len]; exact hh2) (by rw [hS2len]; exact hcap)
      (by rw [hS2len]; exact hlen)
      (by rw [hS2, hS1, List.set_set, listGetSetNe _ _ _ _ hne, ← hhnd])
  have e5 : setIsHeadE ⟨S3, p.cap, fnd.next⟩ f true =
      .ok ⟨S4, p.cap, fnd.next⟩ :=
    setIsHeadE_ok ⟨S3, p.cap, fnd.next⟩ f ⟨v, h, fnd.isHead⟩ true hf1
      (by rw [hS3len]; exact hf2) (by rw [hS3len]; exact hcap)
      (by rw [hS3len]; exact hlen)
      (by
        rw [hS3, hS2, hS1, List.set_set,
          listGetSetNe _ _ _ _ (Ne.symm hne)]
        exact listGetSetSelf p.store (f - 1) _ hflt)
  refine ⟨⟨S4, p.cap, fnd.next⟩, ?_, ?_, ?_, by simpa using hS4len, rfl, ?_⟩
  · -- the computation itself
    simp only [pushRvalue, pushCore, Bool.not_true, Bool.false_eq_true,
      if_false, hpf, hf0, Bool.not_false, eq_self_iff_true, if_true,
      e1, e2, e3, e4, e5]
  · -- representation of the pushed stack
    show stackRep S4 f true ((f, v) :: (h, vh) :: rest) = true
    rw [stackRep_cons]
    refine ⟨rfl, hf1, by rw [hS4len]; exact hf2, ⟨v, h, true⟩, ?_, rfl, rfl,
      ?_⟩
    · rw [hSfin]
      exact listGetSetSelf _ (f - 1) _ (by rw [List.length_set]; exact hflt)
    · show stackRep S4 h false ((h, vh) :: rest) = true
      rw [stackRep_cons]
      refine ⟨rfl, hh1, by rw [hS4len]; exact hh2,
        ⟨hnd.value, hnd.next, false⟩, ?_, hhv, rfl, ?_⟩
      · rw [hSfin, listGetSetNe _ _ _ _ hne]
        exact listGetSetSelf p.store (h - 1) _ hhlt
      · refine stackRep_frame p.store S4 (by rw [hS4len]) hnd.next false rest
          ?_ hrest
        intro cv hcv
        have hb := stackRep_bound p.store hnd.next false rest hrest cv hcv
        have hmem : cv.1 ∈ cells ((h, vh) :: rest) :=
          List.mem_cons_of_mem _ (List.mem_map_of_mem Prod.fst hcv)
        have hninf : cv.1 ∉ f :: ftail := hdisj cv.1 hmem
        have hcf : cv.1 ≠ f := fun hc =>
          hninf (by rw [hc]; exact List.mem_cons_self _ _)
        have hch : cv.1 ≠ h := fun hc =>
          hnodup'.1 (hc ▸ List.mem_map_of_mem Prod.fst hcv)
        rw [hSfin, listGetSetNe _ _ _ _ (by omega),
          listGetSetNe _ _ _ _ (by omega)]
  · -- representation of the remaining free list
    show freeRep S4 fnd.next ftail = true
    refine freeRep_frame p.store S4 (by rw [hS4len]) fnd.next ftail ?_ hftail
    intro c hc
    have hb := freeRep_bound p.store fnd.next ftail hftail c hc
    have hcf : c ≠ f := fun hcf => hfnotin (hcf ▸ hc)
    have hch : c ≠ h := fun hch => hhf.2 (hch ▸ hc)
    rw [hSfin, listGetSetNe _ _ _ _ (by omega),
      listGetSetNe _ _ _ _ (by omega)]
  · -- untouched slots
    intro j hjf hjh
    show S4.get? j = p.store.get? j
    rw [hSfin, listGetSetNe _ _ _ _ (Ne.symm hjf),
      listGetSetNe _ _ _ _ (Ne.symm hjh)]

/-- Effect of a successful `push` (rvalue overload) on a non-sentinel head
when the free list is empty: a new node is appended to the backing store
and its handle (the new size) is returned; the pushed stack gains the new
cell as its unique head cell. -/
theorem push_append_spec (p : Pool) (v : Int) (h : Nat) (vh : Int)
    (rest : List (Nat × Int))
    (hcap : p.store.length ≤ p.cap) (hlen : p.store.length + 1 ≤ 2 ^ 64)
    (hstack : stackRep p.store h true ((h, vh) :: rest) = true)
    (hfree : p.free_nodes = 0)
    (hnodupS : (cells ((h, vh) :: rest)).Nodup) :
    ∃ p' : Pool,
      pushRvalue p v h = .ok (p', p.store.length + 1) ∧
      stackRep p'.store (p.store.length + 1) true
        ((p.store.length + 1, v) :: (h, vh) :: rest) = true ∧
      p'.free_nodes = 0 ∧
      p'.store.length = p.store.length + 1 ∧
      p.cap ≤ p'.cap ∧ p'.store.length ≤ p'.cap ∧
      (∀ j : Nat, j ≠ h - 1 → j < p.store.length →
        p'.store.get? j = p.store.get? j) := by
  obtain ⟨-, hh1, hh2, hnd, hhnd, hhv, hhh, hrest⟩ :=
    (stackRep_cons p.store h true h vh rest).mp hstack
  have hcc : cells ((h, vh) :: rest) = h :: cells rest := rfl
  have hnodup' : h ∉ cells rest ∧ (cells rest).Nodup :=
    List.nodup_cons.mp (hcc ▸ hnodupS)
  have hhlt : h - 1 < p.store.length := by omega
  have hSAlen : (p.store ++ [(⟨v, h, true⟩ : Node)]).length =
      p.store.length + 1 := by simp
  have hCA : p.store.length + 1 ≤
      (if p.store.length < p.cap then p.cap else p.store.length + 1) := by
    split <;> omega
  have hCA2 : p.cap ≤
      (if p.store.length < p.cap then p.cap else p.store.length + 1) := by
    split <;> omega
  have hgeth : (p.store ++ [(⟨v, h, true⟩ : Node)]).get? (h - 1) =
      some hnd := by
    rw [listGetAppendLeft _ _ _ hhlt]; exact hhnd
  have e1 : setIsHeadE (emplaceBack p v h true) h false =
      .ok ⟨(p.store ++ [(⟨v, h, true⟩ : Node)]).set (h - 1)
            ⟨hnd.value, hnd.next, false⟩,
          if p.store.length < p.cap then p.cap else p.store.length + 1,
          p.free_nodes⟩ := by
    show setIsHeadE ⟨p.store ++ [(⟨v, h, true⟩ : Node)],
        if p.store.length < p.cap then p.cap else p.store.length + 1,
        p.free_nodes⟩ h false = _
    exact setIsHeadE_ok _ h hnd false hh1
      (by rw [hSAlen]; omega) (by rw [hSAlen]; exact hCA)
      (by rw [hSAlen]; exact hlen) hgeth
  have hSBlen : ((p.store ++ [(⟨v, h, true⟩ : Node)]).set (h - 1)
      ⟨hnd.value, hnd.next, false⟩).length = p.store.length + 1 := by
    rw [List.length_set, hSAlen]
  have hf0 : (p.free_nodes == 0) = true := by rw [hfree]; rfl
  refine ⟨⟨(p.store ++ [(⟨v, h, true⟩ : Node)]).set (h - 1)
      ⟨hnd.value, hnd.next, false⟩,
      if p.store.length < p.cap then p.cap else p.store.length + 1,
      p.free_nodes⟩, ?_, ?_, hfree, hSBlen, hCA2,
      by rw [hSBlen]; exact hCA, ?_⟩
  · -- the computation itself
    simp only [pushRvalue, pushCore, Bool.not_true, Bool.false_eq_true,
      if_false, hf0, e1, hSBlen]
  · -- representation of the pushed stack
    show stackRep ((p.store ++ [(⟨v, h, true⟩ : Node)]).set (h - 1)
        ⟨hnd.value, hnd.next, false⟩) (p.store.length + 1) true
        ((p.store.length + 1, v) :: (h, vh) :: rest) = true
    rw [stackRep_cons]
    refine ⟨rfl, by omega, by rw [hSBlen], ⟨v, h, true⟩, ?_, rfl, rfl, ?_⟩
    · rw [listGetSetNe _ _ _ _ (by omega)]
      have : p.store.length + 1 - 1 = p.store.length := by omega
      rw [this]
      exact listGetAppendLength p.store _
    · show stackRep _ h false ((h, vh) :: rest) = true
      rw [stackRep_cons]
      refine ⟨rfl, hh1, by rw [hSBlen]; omega,
        ⟨hnd.value, hnd.next, false⟩, ?_, hhv, rfl, ?_⟩
      · exact listGetSetSelf _ (h - 1) _ (by rw [hSAlen]; omega)
      · refine stackRep_frame p.store _ (by rw [hSBlen]; omega) hnd.next
          false rest ?_ hrest
        intro cv hcv
        have hb := stackRep_bound p.store hnd.next false rest hrest cv hcv
        have hch : cv.1 ≠ h := fun hc =>
          hnodup'.1 (hc ▸ List.mem_map_of_mem Prod.fst hcv)
        rw [listGetSetNe _ _ _ _ (by omega),
          listGetAppendLeft _ _ _ (by omega)]
  · -- untouched slots
    intro j hjh hjlt
    show ((p.store ++ [(⟨v, h, true⟩ : Node)]).set (h - 1)
        ⟨hnd.value, hnd.next, false⟩).get? j = p.store.get? j
    rw [listGetSetNe _ _ _ _ (Ne.symm hjh), listGetAppendLeft _ _ _ hjlt]

/-- Effect of a successful `pop` on the head `x` of a represented stack
whose successor `t` is not the sentinel: `t` is returned and becomes the
unique head cell, and `x` becomes the new head of the free list, flagged
as a non-head and carrying the debug value `-1`. -/
theorem pop_spec (p : Pool) (x : Nat) (vx : Int) (t : Nat) (vt : Int)
    (rest : List (Nat × Int)) (frees : List Nat)
    (hcap : p.store.length ≤ p.cap) (hlen : p.store.length ≤ 2 ^ 64)
    (hstack : stackRep p.store x true ((x, vx) :: (t, vt) :: rest) = true)
    (hfree : freeRep p.store p.free_nodes frees = true)
    (hnodupS : (cells ((x, vx) :: (t, vt) :: rest)).Nodup)
    (hdisj : ∀ c ∈ cells ((x, vx) :: (t, vt) :: rest), c ∉ frees) :
    ∃ p' : Pool,
      pop p x = .ok (p', t) ∧
      stackRep p'.store t true ((t, vt) :: rest) = true ∧
      freeRep p'.store p'.free_nodes (x :: frees) = true ∧
      p'.free_nodes = x ∧
      p'.store.length = p.store.length ∧
      p'.cap = p.cap ∧
      (∀ j : Nat, j ≠ x - 1 → j ≠ t - 1 →
        p'.store.get? j = p.store.get? j) := by
  obtain ⟨-, hx1, hx2, xnd, hxnd, hxv, hxh, hrest1⟩ :=
    (stackRep_cons p.store x true x vx ((t, vt) :: rest)).mp hstack
  obtain ⟨hxt, ht1, ht2, tnd, htnd, htv, hth, hrest⟩ :=
    (stackRep_cons p.store xnd.next false t vt rest).mp hrest1
  have hcc : cells ((x, vx) :: (t, vt) :: rest) = x :: t :: cells rest := rfl
  have hnodup1 : x ∉ t :: cells rest ∧ (t :: cells rest).Nodup :=
    List.nodup_cons.mp (hcc ▸ hnodupS)
  have hnodup2 : t ∉ cells rest ∧ (cells rest).Nodup :=
    List.nodup_cons.mp hnodup1.2
  have hxtne : x ≠ t := fun hc => hnodup1.1 (hc ▸ List.mem_cons_self _ _)
  have hxlt : x - 1 < p.store.length := by omega
  have htlt : t - 1 < p.store.length := by omega
  have hne : x - 1 ≠ t - 1 := by omega
  have hxninf : x ∉ frees := hdisj x (by rw [hcc]; exact List.mem_cons_self _ _)
  have htninf : t ∉ frees := hdisj t
    (by rw [hcc]; exact List.mem_cons_of_mem _ (List.mem_cons_self _ _))
  set T1 : List Node := p.store.set (x - 1) ⟨xnd.value, p.free_nodes, xnd.isHead⟩
    with hT1
  set T2 : List Node := T1.set (x - 1) ⟨-1, p.free_nodes, xnd.isHead⟩ with hT2
  set T3 : List Node := T2.set (t - 1) ⟨tnd.value, tnd.next, true⟩ with hT3
  set T4 : List Node := T3.set (x - 1) ⟨-1, p.free_nodes, false⟩ with hT4
  have hT1len : T1.length = p.store.length := by rw [hT1, List.length_set]
  have hT2len : T2.length = p.store.length := by
    rw [hT2, List.length_set, hT1len]
  have hT3len : T3.length = p.store.length := by
    rw [hT3, List.length_set, hT2len]
  have hT4len : T4.length = p.store.length := by
    rw [hT4, List.length_set, hT3len]
  have hTfin : T4 = (p.store.set (t - 1) ⟨tnd.value, tnd.next, true⟩).set
      (x - 1) ⟨-1, p.free_nodes, false⟩ := by
    rw [hT4, hT3, hT2, hT1, List.set_set, List.set_comm _ _ _ hne,
      List.set_set]
  have e0 : isHeadE p x = .ok true := by
    rw [isHeadE_ok p x xnd hx1 hx2 hcap hlen hxnd, hxh]
  have hx0 : (x == 0) = false := by simp; omega
  have e2 : nextE p x = .ok t := by
    rw [nextE_ok p x xnd hx1 hx2 hcap hlen hxnd, hxt]
  have e3 : setNextE p x p.free_nodes = .ok ⟨T1, p.cap, p.free_nodes⟩ :=
    setNextE_ok p x xnd p.free_nodes hx1 hx2 hcap hlen hxnd
  have e4 : setValueE ⟨T1, p.cap, x⟩ x (-1) = .ok ⟨T2, p.cap, x⟩ :=
    setValueE_ok ⟨T1, p.cap, x⟩ x ⟨xnd.value, p.free_nodes, xnd.isHead⟩ (-1)
      hx1 (by rw [hT1len]; exact hx2) (by rw [hT1len]; exact hcap)
      (by rw [hT1len]; exact hlen)
      (by rw [hT1]; exact listGetSetSelf p.store (x - 1) _ hxlt)
  have e5 : setIsHeadE ⟨T2, p.cap, x⟩ t true = .ok ⟨T3, p.cap, x⟩ :=
    setIsHeadE_ok ⟨T2, p.cap, x⟩ t ⟨tnd.value, tnd.next, tnd.isHead⟩ true ht1
      (by rw [hT2len]; exact ht2) (by rw [hT2len]; exact hcap)
      (by rw [hT2len]; exact hlen)
      (by
        rw [hT2, hT1, List.set_set, listGetSetNe _ _ _ _ hne, ← htnd])
  have e6 : setIsHeadE ⟨T3, p.cap, x⟩ x false = .ok ⟨T4, p.cap, x⟩ :=
    setIsHeadE_ok ⟨T3, p.cap, x⟩ x ⟨-1, p.free_nodes, xnd.isHead⟩ false hx1
      (by rw [hT3len]; exact hx2) (by rw [hT3len]; exact hcap)
      (by rw [hT3len]; exact hlen)
      (by
        rw [hT3, hT2, hT1, List.set_set,
          listGetSetNe _ _ _ _ (Ne.symm hne)]
        exact listGetSetSelf p.store (x - 1) _ hxlt)
  refine ⟨⟨T4, p.cap, x⟩, ?_, ?_, ?_, rfl, by simpa using hT4len, rfl, ?_⟩
  · -- the computation itself
    simp only [pop, e0, Bool.not_true, Bool.false_eq_true, if_false,
      emptyQ, endH, hx0, e2, e3, e4, e5, e6]
  · -- representation of the popped stack
    show stackRep T4 t true ((t, vt) :: rest) = true
    rw [stackRep_cons]
    refine ⟨rfl, ht1, by rw [hT4len]; exact ht2,
      ⟨tnd.value, tnd.next, true⟩, ?_, htv, rfl, ?_⟩
    · rw [hTfin, listGetSetNe _ _ _ _ hne]
      exact listGetSetSelf p.store (t - 1) _ htlt
    · refine stackRep_frame p.store T4 (by rw [hT4len]) tnd.next false rest
        ?_ hrest
      intro cv hcv
      have hb := stackRep_bound p.store tnd.next false rest hrest cv hcv
      have hcx : cv.1 ≠ x := fun hc =>
        hnodup1.1 (hc ▸ List.mem_cons_of_mem _
          (List.mem_map_of_mem Prod.fst hcv))
      have hct : cv.1 ≠ t := fun hc =>
        hnodup2.1 (hc ▸ List.mem_map_of_mem Prod.fst hcv)
      rw [hTfin, listGetSetNe _ _ _ _ (by omega),
        listGetSetNe _ _ _ _ (by omega)]
  · -- representation of the grown free list
    show freeRep T4 x (x :: frees) = true
    rw [freeRep_cons]
    refine ⟨rfl, hx1, by rw [hT4len]; exact hx2,
      ⟨-1, p.free_nodes, false⟩, ?_, rfl, ?_⟩
    · rw [hTfin]
      exact listGetSetSelf _ (x - 1) _ (by rw [List.length_set]; exact hxlt)
    · refine freeRep_frame p.store T4 (by rw [hT4len]) p.free_nodes frees
        ?_ hfree
      intro c hc
      have hb := freeRep_bound p.store p.free_nodes frees hfree c hc
      have hcx : c ≠ x := fun hcx => hxninf (hcx ▸ hc)
      have hct : c ≠ t := fun hct => htninf (hct ▸ hc)
      rw [hTfin, listGetSetNe _ _ _ _ (by omega),
        listGetSetNe _ _ _ _ (by omega)]
  · -- untouched slots
    intro j hjx hjt
    show T4.get? j = p.store.get? j
    rw [hTfin, listGetSetNe _ _ _ _ (Ne.symm hjx),
      listGetSetNe _ _ _ _ (Ne.symm hjt)]

/-- C1: the claim states that `push` never raises the type-mismatch error
for a value of the pool's declared value type, in particular through the
lvalue overload `push(const T&, h)`.  The code refutes this: the lvalue
overload forwards an lvalue into `_push`, the forwarding reference
deduces `X = const T&`, `std::is_same<const T&, T>::value` is false, and
the overload therefore raises `NotEqualTypeException` on every call,
whatever the pool state, value, and head are. -/
theorem c1_lvalue_push_always_type_error (p : Pool) (v : Int) (h : Nat) :
    pushLvalue p v h = .error .notEqualType := rfl

/-- C2: the claim states that `pop` applied to the sentinel handle `0`
raises the empty-stack error.  The code refutes this: `pop` evaluates
`isHead(x)` before its `empty(x)` test, and `node(0)` passes the
`x > capacity()` check and reads `pool[0 - 1]`, an out-of-bounds access
(undefined behavior); the `EmptyStackException` branch is never reached.
Both a freshly constructed pool and a pool with a constructed slot are
shown. -/
theorem c2_pop_sentinel_is_ub :
    pop ⟨[], 0, 0⟩ 0 = .error .ub ∧
    pop ⟨[⟨3, 0, false⟩], 4, 0⟩ 0 = .error .ub := ⟨rfl, rfl⟩

/-- C3: the claim states that `value`, `next` and `is_head` raise the
range error exactly on handles that do not refer to a constructed slot,
including the sentinel.  The code refutes this: on a pool constructed
with capacity 5 and no constructed slot, each accessor applied to the
sentinel `0` performs the wrapped out-of-bounds read `pool[2^64 - 1]`
(undefined behavior, not the range exception), `value(3)` with
`3 ≤ capacity` reads the unconstructed slot `pool[2]` (again undefined
behavior), and only a handle beyond the capacity, such as `7`, actually
raises `RangeCheckingException`. -/
theorem c3_accessor_range_check :
    valueE ⟨[], 5, 0⟩ 0 = .error .ub ∧
    nextE ⟨[], 5, 0⟩ 0 = .error .ub ∧
    isHeadE ⟨[], 5, 0⟩ 0 = .error .ub ∧
    valueE ⟨[], 5, 0⟩ 3 = .error .ub ∧
    valueE ⟨[], 5, 0⟩ 7 = .error .rangeChecking :=
  ⟨rfl, rfl, rfl, rfl, rfl⟩

/-- C4: the claim states that `push` and `pop` never use the sentinel
handle as an array index, demoting or promoting `is_head` only for
non-sentinel handles.  The code refutes this: both branches of `_push`
execute `isHead(head) = false` unconditionally, so pushing onto an empty
stack (`head = 0`) indexes `pool[0 - 1]` (undefined behavior) in the
append branch as well as in the free-list reuse branch, and `pop` on a
single-element stack executes `isHead(next(x)) = true` with
`next(x) = 0`, again indexing `pool[0 - 1]`. -/
theorem c4_sentinel_used_as_index :
    pushRvalue ⟨[], 5, 0⟩ 10 0 = .error .ub ∧
    pushRvalue ⟨[⟨1, 0, false⟩], 5, 1⟩ 10 0 = .error .ub ∧
    pop ⟨[⟨10, 0, true⟩], 1, 0⟩ 1 = .error .ub := ⟨rfl, rfl, rfl⟩

/-- C6: the claim states that N pushes onto an initially empty stack give
a head of length N with the values in reverse insertion order.  The code
refutes this already at N = 1: on a fresh pool, the very first push onto
`new_stack()` (the sentinel) executes `isHead(0) = false` and performs
the out-of-bounds access `pool[0 - 1]` (undefined behavior), so the push
never completes. -/
theorem c6_first_push_on_new_stack_is_ub :
    pushRvalue ⟨[], 3, 0⟩ 42 (new_stack ⟨[], 3, 0⟩) = .error .ub := rfl

/-- C9: the claim states that, on an acyclic stack, `free_stack`
terminates returning the sentinel and `length` terminates with the node
count.  The code refutes the `free_stack` half: on a pool holding the
single-node stack with head `1`, `length` does return 1, but
`free_stack(1)` calls `pop(1)`, whose final `isHead(next(1)) = true` with
`next(1) = 0` performs the out-of-bounds access `pool[0 - 1]` (undefined
behavior), so `free_stack` faults on every non-empty stack instead of
reaching the sentinel. -/
theorem c9_free_stack_faults_before_sentinel :
    freeStackFuel ⟨[⟨10, 0, true⟩], 1, 0⟩ 1 2 = some (.error .ub) ∧
    lengthFuel ⟨[⟨10, 0, true⟩], 1, 0⟩ 1 0 2 = some (.ok 1) := ⟨rfl, rfl⟩

/-- C10: `empty(x)` depends only on its handle argument: it equals the
test `x = 0`, never fails (its Lean type is a plain `Bool` because the
source reads no node storage), and returns the same answer in every pool
state. -/
theorem c10_empty_depends_only_on_handle (p q : Pool) (x : Nat) :
    emptyQ p x = decide (x = 0) ∧ emptyQ p x = emptyQ q x := by
  refine ⟨?_, rfl⟩
  cases x <;> rfl

/-- C5: after a successful `push` or `pop`, the operated stack has
exactly one node flagged `is_head`, namely the one whose handle the
operation returned (`stackRep` requires the head cell to carry
`is_head = true` and every other cell to carry `is_head = false`); any
other live stack with disjoint cells keeps its representation, and every
free-list node remains flagged `is_head = false`.  The hypotheses are the
data-model invariants of the spec: represented stack and free list,
handles of constructed slots, no duplicate cells, disjointness. -/
theorem c5_head_invariant :
    (∀ (p : Pool) (v vh : Int) (h g : Nat) (rest orep : List (Nat × Int))
        (frees : List Nat),
      p.store.length ≤ p.cap → p.store.length + 1 ≤ 2 ^ 64 →
      stackRep p.store h true ((h, vh) :: rest) = true →
      freeRep p.store p.free_nodes frees = true →
      (cells ((h, vh) :: rest)).Nodup → frees.Nodup →
      (∀ c ∈ cells ((h, vh) :: rest), c ∉ frees) →
      stackRep p.store g true orep = true →
      (∀ c ∈ cells orep, c ∉ cells ((h, vh) :: rest) ∧ c ∉ frees) →
      ∃ (p' : Pool) (t : Nat),
        pushRvalue p v h = .ok (p', t) ∧
        stackRep p'.store t true ((t, v) :: (h, vh) :: rest) = true ∧
        stackRep p'.store g true orep = true ∧
        freeRep p'.store p'.free_nodes frees.tail = true) ∧
    (∀ (p : Pool) (vx vt : Int) (x t g : Nat) (rest orep : List (Nat × Int))
        (frees : List Nat),
      p.store.length ≤ p.cap → p.store.length ≤ 2 ^ 64 →
      stackRep p.store x true ((x, vx) :: (t, vt) :: rest) = true →
      freeRep p.store p.free_nodes frees = true →
      (cells ((x, vx) :: (t, vt) :: rest)).Nodup →
      (∀ c ∈ cells ((x, vx) :: (t, vt) :: rest), c ∉ frees) →
      stackRep p.store g true orep = true →
      (∀ c ∈ cells orep, c ∉ cells ((x, vx) :: (t, vt) :: rest) ∧ c ∉ frees) →
      ∃ p' : Pool,
        pop p x = .ok (p', t) ∧
        stackRep p'.store t true ((t, vt) :: rest) = true ∧
        stackRep p'.store g true orep = true ∧
        freeRep p'.store p'.free_nodes (x :: frees) = true) := by
  constructor
  · intro p v vh h g rest orep frees hcap hlen hstack hfree hnodupS hnodupF
      hdisj horep hdisjO
    have hh1 : 1 ≤ h := ((stackRep_cons _ _ _ _ _ _).mp hstack).2.1
    cases frees with
    | nil =>
      have hf0 : p.free_nodes = 0 := (freeRep_nil _ _).mp hfree
      obtain ⟨p', hpush, hrep, hfn, hlen', hcap1, hcap2, hframe⟩ :=
        push_append_spec p v h vh rest hcap hlen hstack hf0 hnodupS
      refine ⟨p', p.store.length + 1, hpush, hrep, ?_, ?_⟩
      · refine stackRep_frame p.store p'.store (by omega) g true orep ?_ horep
        intro cv hcv
        have hb := stackRep_bound p.store g true orep horep cv hcv
        have hmem : cv.1 ∈ cells orep := List.mem_map_of_mem Prod.fst hcv
        have hch : cv.1 ≠ h := fun hc =>
          (hdisjO cv.1 hmem).1 (hc ▸ List.mem_cons_self _ _)
        exact hframe (cv.1 - 1) (by omega) (by omega)
      · show freeRep p'.store p'.free_nodes [] = true
        rw [freeRep_nil]
        exact hfn
    | cons f ftail =>
      have hff1 : 1 ≤ f := (freeRep_bound _ _ _ hfree f
        (List.mem_cons_self _ _)).1
      obtain ⟨p', hpush, hrep, hfrep, hlen', hcap', hframe⟩ :=
        push_reuse_spec p v h vh rest f ftail hcap (by omega) hstack hfree
          hnodupS hnodupF hdisj
      refine ⟨p', f, hpush, hrep, ?_, hfrep⟩
      refine stackRep_frame p.store p'.store (by omega) g true orep ?_ horep
      intro cv hcv
      have hb := stackRep_bound p.store g true orep horep cv hcv
      have hmem : cv.1 ∈ cells orep := List.mem_map_of_mem Prod.fst hcv
      have hch : cv.1 ≠ h := fun hc =>
        (hdisjO cv.1 hmem).1 (hc ▸ List.mem_cons_self _ _)
      have hcf : cv.1 ≠ f := fun hc =>
        (hdisjO cv.1 hmem).2 (hc ▸ List.mem_cons_self _ _)
      exact hframe (cv.1 - 1) (by omega) (by omega)
  · intro p vx vt x t g rest orep frees hcap hlen hstack hfree hnodupS
      hdisj horep hdisjO
    have hx1 : 1 ≤ x := ((stackRep_cons _ _ _ _ _ _).mp hstack).2.1
    obtain ⟨p', hpop, hrep, hfrep, hfn, hlen', hcap', hframe⟩ :=
      pop_spec p x vx t vt rest frees hcap hlen hstack hfree hnodupS hdisj
    have ht1 : 1 ≤ t := by
      have := (stackRep_cons _ _ _ _ _ _).mp hrep
      exact this.2.1
    refine ⟨p', hpop, hrep, ?_, hfrep⟩
    refine stackRep_frame p.store p'.store (by omega) g true orep ?_ horep
    intro cv hcv
    have hb := stackRep_bound p.store g true orep horep cv hcv
    have hmem : cv.1 ∈ cells orep := List.mem_map_of_mem Prod.fst hcv
    have hcx : cv.1 ≠ x := fun hc =>
      (hdisjO cv.1 hmem).1 (hc ▸ List.mem_cons_self _ _)
    have hct : cv.1 ≠ t := fun hc =>
      (hdisjO cv.1 hmem).1
        (hc ▸ List.mem_cons_of_mem _ (List.mem_cons_self _ _))
    exact hframe (cv.1 - 1) (by omega) (by omega)

/-- Witness for C5 at a concrete pool: pushing 7 onto the one-element
stack with head 1 and popping the two-element stack with head 2, with
every hypothesis checked by evaluation. -/
theorem c5_head_invariant_witness :
    (∃ (p' : Pool) (t : Nat),
      pushRvalue ⟨[⟨5, 0, true⟩], 2, 0⟩ 7 1 = .ok (p', t) ∧
      stackRep p'.store t true ((t, 7) :: (1, 5) :: []) = true ∧
      stackRep p'.store 0 true [] = true ∧
      freeRep p'.store p'.free_nodes [] = true) ∧
    (∃ p' : Pool,
      pop ⟨[⟨5, 0, false⟩, ⟨9, 1, true⟩], 2, 0⟩ 2 = .ok (p', 1) ∧
      stackRep p'.store 1 true ((1, 5) :: []) = true ∧
      stackRep p'.store 0 true [] = true ∧
      freeRep p'.store p'.free_nodes (2 :: []) = true) := by
  constructor
  · exact c5_head_invariant.1 ⟨[⟨5, 0, true⟩], 2, 0⟩ 7 5 1 0 [] [] []
      (by decide) (by decide) (by decide) (by decide) (by decide)
      (by decide) (by decide) (by decide) (by decide)
  · exact c5_head_invariant.2 ⟨[⟨5, 0, false⟩, ⟨9, 1, true⟩], 2, 0⟩ 9 5 2 1 0
      [] [] [] (by decide) (by decide) (by decide) (by decide) (by decide)
      (by decide) (by decide) (by decide)

/-- Counterexample to C7 as stated: the claim quantifies over every stack
head "possibly the sentinel", but on a freshly constructed pool
(a reachable state) pushing onto the sentinel head `0` performs the
out-of-bounds access `pool[0 - 1]` (undefined behavior) instead of
returning a new head, so no handle `h2` with the claimed properties
exists for `h1 = 0`. -/
theorem c7_cex_roundtrip_fails_at_sentinel :
    pushRvalue ⟨[], 2, 0⟩ 9 0 = .error .ub := rfl

/-- C7 amended: for every well-formed pool state and every non-sentinel
stack head `h` of a represented stack, pushing a value and immediately
popping the returned head yields `h` back, with the stack's length and
traversed value sequence both equal to their values before the push. -/
theorem c7_amended_push_then_pop (p : Pool) (v vh : Int) (h : Nat)
    (rest : List (Nat × Int)) (frees : List Nat)
    (hcap : p.store.length ≤ p.cap) (hlen : p.store.length + 1 ≤ 2 ^ 64)
    (hstack : stackRep p.store h true ((h, vh) :: rest) = true)
    (hfree : freeRep p.store p.free_nodes frees = true)
    (hnodupS : (cells ((h, vh) :: rest)).Nodup)
    (hnodupF : frees.Nodup)
    (hdisj : ∀ c ∈ cells ((h, vh) :: rest), c ∉ frees) :
    ∃ (p1 p2 : Pool) (t : Nat),
      pushRvalue p v h = .ok (p1, t) ∧
      pop p1 t = .ok (p2, h) ∧
      lengthFuel p2 h 0 (rest.length + 2) = some (.ok (rest.length + 1)) ∧
      lengthFuel p h 0 (rest.length + 2) = some (.ok (rest.length + 1)) ∧
      traverseFuel p2 h (rest.length + 2) =
        some (.ok (vh :: rest.map Prod.snd)) ∧
      traverseFuel p h (rest.length + 2) =
        some (.ok (vh :: rest.map Prod.snd)) := by
  have hbefL : lengthFuel p h 0 (rest.length + 2) =
      some (.ok (rest.length + 1)) := by
    have := lengthFuel_of_stackRep p h true ((h, vh) :: rest) 0 hcap
      (by omega) hstack
    simpa using this
  have hbefT : traverseFuel p h (rest.length + 2) =
      some (.ok (vh :: rest.map Prod.snd)) := by
    have := traverseFuel_of_stackRep p h true ((h, vh) :: rest) hcap
      (by omega) hstack
    simpa using this
  have hcc : cells ((h, vh) :: rest) = h :: cells rest := rfl
  have hnodup' : h ∉ cells rest ∧ (cells rest).Nodup :=
    List.nodup_cons.mp (hcc ▸ hnodupS)
  cases frees with
  | nil =>
    have hf0 : p.free_nodes = 0 := (freeRep_nil _ _).mp hfree
    obtain ⟨p1, hpush, hrep, hfn, hlen1, hcap1, hcap2, hframe⟩ :=
      push_append_spec p v h vh rest hcap hlen hstack hf0 hnodupS
    have hbound := stackRep_bound p.store h true ((h, vh) :: rest) hstack
    have hnodupS1 : (cells ((p.store.length + 1, v) :: (h, vh) :: rest)).Nodup := by
      refine List.nodup_cons.mpr ⟨?_, hnodupS⟩
      intro hmem
      obtain ⟨cv, hcv, hfst⟩ := List.mem_map.mp hmem
      have := hbound cv hcv
      omega
    have hfree1 : freeRep p1.store p1.free_nodes [] = true := by
      rw [freeRep_nil]; exact hfn
    obtain ⟨p2, hpop, hrep2, hfrep2, hfn2, hlen2, hcap2', hframe2⟩ :=
      pop_spec p1 (p.store.length + 1) v h vh rest [] (by omega)
        (by omega) hrep hfree1 hnodupS1 (by simp)
    refine ⟨p1, p2, p.store.length + 1, hpush, hpop, ?_, hbefL, ?_, hbefT⟩
    · have := lengthFuel_of_stackRep p2 h true ((h, vh) :: rest) 0
        (by omega) (by omega) hrep2
      simpa using this
    · have := traverseFuel_of_stackRep p2 h true ((h, vh) :: rest)
        (by omega) (by omega) hrep2
      simpa using this
  | cons f ftail =>
    have hff : 1 ≤ f ∧ f ≤ p.store.length := freeRep_bound _ _ _ hfree f
      (List.mem_cons_self _ _)
    have hfnotin : f ∉ ftail := (List.nodup_cons.mp hnodupF).1
    have hhf : h ≠ f ∧ h ∉ ftail := by
      have := hdisj h (by simp [cells])
      simpa using this
    obtain ⟨p1, hpush, hrep, hfrep, hlen1, hcap1, hframe⟩ :=
      push_reuse_spec p v h vh rest f ftail hcap (by omega) hstack hfree
        hnodupS hnodupF hdisj
    have hnodupS1 : (cells ((f, v) :: (h, vh) :: rest)).Nodup := by
      refine List.nodup_cons.mpr ⟨?_, hnodupS⟩
      intro hmem
      obtain ⟨cv, hcv, hfst⟩ := List.mem_map.mp hmem
      rcases List.mem_cons.mp hcv with hcv' | hcv'
      · rw [hcv'] at hfst
        exact hhf.1 (by simpa using hfst)
      · exact hdisj cv.1 (List.mem_cons_of_mem _
          (List.mem_map_of_mem Prod.fst hcv'))
          (by rw [hfst]; exact List.mem_cons_self _ _)
    have hdisj1 : ∀ c ∈ cells ((f, v) :: (h, vh) :: rest), c ∉ ftail := by
      intro c hc
      obtain ⟨cv, hcv, hfst⟩ := List.mem_map.mp hc
      rcases List.mem_cons.mp hcv with hcv' | hcv'
      · rw [hcv'] at hfst
        intro hmem
        apply hfnotin
        simpa [← hfst] using hmem
      · intro hmem
        exact hdisj cv.1 (List.mem_map_of_mem Prod.fst hcv')
          (List.mem_cons_of_mem _ (hfst.symm ▸ hmem))
    obtain ⟨p2, hpop, hrep2, hfrep2, hfn2, hlen2, hcap2', hframe2⟩ :=
      pop_spec p1 f v h vh rest ftail (by omega) (by omega) hrep hfrep
        hnodupS1 hdisj1
    refine ⟨p1, p2, f, hpush, hpop, ?_, hbefL, ?_, hbefT⟩
    · have := lengthFuel_of_stackRep p2 h true ((h, vh) :: rest) 0
        (by omega) (by omega) hrep2
      simpa using this
    · have := traverseFuel_of_stackRep p2 h true ((h, vh) :: rest)
        (by omega) (by omega) hrep2
      simpa using this

/-- Witness for the amended C7 at a concrete pool: pushing 7 onto the
one-element stack with head 1 and popping the returned head restores
head 1, length 1 and the value sequence `[5]`. -/
theorem c7_amended_witness :
    ∃ (p1 p2 : Pool) (t : Nat),
      pushRvalue ⟨[⟨5, 0, true⟩], 2, 0⟩ 7 1 = .ok (p1, t) ∧
      pop p1 t = .ok (p2, 1) ∧
      lengthFuel p2 1 0 2 = some (.ok 1) ∧
      lengthFuel ⟨[⟨5, 0, true⟩], 2, 0⟩ 1 0 2 = some (.ok 1) ∧
      traverseFuel p2 1 2 = some (.ok [5]) ∧
      traverseFuel ⟨[⟨5, 0, true⟩], 2, 0⟩ 1 2 = some (.ok [5]) :=
  c7_amended_push_then_pop ⟨[⟨5, 0, true⟩], 2, 0⟩ 7 5 1 [] []
    (by decide) (by decide) (by decide) (by decide) (by decide) (by decide)
    (by decide)

/-- C8: whenever the free list is non-empty, a successful push does not
grow the backing store and returns the free-list head handle
(`p.free_nodes`); and in the just-freed scenario — a pool whose free
list was empty, a pop that frees handle `x`, then the next push — the
push returns exactly the just-freed handle `x` and the backing-store
size equals its value before the pop. -/
theorem c8_free_list_reuse :
    (∀ (p : Pool) (v vh : Int) (h : Nat) (rest : List (Nat × Int))
        (f : Nat) (ftail : List Nat),
      p.store.length ≤ p.cap → p.store.length ≤ 2 ^ 64 →
      stackRep p.store h true ((h, vh) :: rest) = true →
      freeRep p.store p.free_nodes (f :: ftail) = true →
      (cells ((h, vh) :: rest)).Nodup → (f :: ftail).Nodup →
      (∀ c ∈ cells ((h, vh) :: rest), c ∉ f :: ftail) →
      ∃ p' : Pool,
        pushRvalue p v h = .ok (p', p.free_nodes) ∧
        p'.store.length = p.store.length) ∧
    (∀ (p : Pool) (v vx vt : Int) (x t : Nat) (rest : List (Nat × Int)),
      p.store.length ≤ p.cap → p.store.length ≤ 2 ^ 64 →
      stackRep p.store x true ((x, vx) :: (t, vt) :: rest) = true →
      p.free_nodes = 0 →
      (cells ((x, vx) :: (t, vt) :: rest)).Nodup →
      ∃ p1 p2 : Pool,
        pop p x = .ok (p1, t) ∧
        pushRvalue p1 v t = .ok (p2, x) ∧
        p2.store.length = p.store.length ∧
        p1.free_nodes = x) := by
  constructor
  · intro p v vh h rest f ftail hcap hlen hstack hfree hnodupS hnodupF hdisj
    obtain ⟨hpf, -, -, -, -, -, -⟩ :=
      (freeRep_cons p.store p.free_nodes f ftail).mp hfree
    obtain ⟨p', hpush, -, -, hlen', -, -⟩ :=
      push_reuse_spec p v h vh rest f ftail hcap hlen hstack hfree
        hnodupS hnodupF hdisj
    exact ⟨p', by rw [hpf]; exact hpush, hlen'⟩
  · intro p v vx vt x t rest hcap hlen hstack hfree0 hnodupS
    have hfree : freeRep p.store p.free_nodes [] = true := by
      rw [freeRep_nil]; exact hfree0
    obtain ⟨p1, hpop, hrep, hfrep, hfn, hlen1, hcap1, hframe⟩ :=
      pop_spec p x vx t vt rest [] hcap hlen hstack hfree hnodupS (by simp)
    have hcc : cells ((x, vx) :: (t, vt) :: rest) = x :: t :: cells rest :=
      rfl
    have hnodup1 : x ∉ t :: cells rest ∧ (t :: cells rest).Nodup :=
      List.nodup_cons.mp (hcc ▸ hnodupS)
    have hnodupS1 : (cells ((t, vt) :: rest)).Nodup := hnodup1.2
    have hnodupF1 : (x :: ([] : List Nat)).Nodup := by simp
    have hdisj1 : ∀ c ∈ cells ((t, vt) :: rest), c ∉ x :: ([] : List Nat) := by
      intro c hc
      simp only [List.mem_cons, List.not_mem_nil, or_false]
      intro hceq
      exact hnodup1.1 (hceq ▸ hc)
    obtain ⟨p2, hpush, -, -, hlen2, -, -⟩ :=
      push_reuse_spec p1 v t vt rest x [] (by omega) (by omega) hrep hfrep
        hnodupS1 hnodupF1 hdisj1
    exact ⟨p1, p2, hpop, hpush, by omega, hfn⟩

/-- Witness for C8: on a pool whose slot 2 is free, pushing 7 onto the
stack with head 1 reuses and returns handle 2 without growing the store;
and popping the two-element stack with head 2 then pushing 7 onto the
returned head 1 returns the just-freed handle 2 with the store size
unchanged. -/
theorem c8_free_list_reuse_witness :
    (∃ p' : Pool,
      pushRvalue ⟨[⟨5, 0, true⟩, ⟨0, 0, false⟩], 2, 2⟩ 7 1 = .ok (p', 2) ∧
      p'.store.length = 2) ∧
    (∃ p1 p2 : Pool,
      pop ⟨[⟨5, 0, false⟩, ⟨9, 1, true⟩], 2, 0⟩ 2 = .ok (p1, 1) ∧
      pushRvalue p1 7 1 = .ok (p2, 2) ∧
      p2.store.length = 2 ∧
      p1.free_nodes = 2) := by
  constructor
  · exact c8_free_list_reuse.1 ⟨[⟨5, 0, true⟩, ⟨0, 0, false⟩], 2, 2⟩ 7 5 1 []
      2 [] (by decide) (by decide) (by decide) (by decide) (by decide)
      (by decide) (by decide)
  · exact c8_free_list_reuse.2 ⟨[⟨5, 0, false⟩, ⟨9, 1, true⟩], 2, 0⟩ 7 9 5 2 1
      [] (by decide) (by decide) (by decide) (by decide) (by decide)
